import Mathlib

/-!
Package `validator` (internal/validator/validator.go).

A shallow embedding of the error-accumulating `Validator` and of the stateless
predicate helpers `PermittedValue`, `Matches` and `Unique`, followed by the
properties proved about them.

Modelling conventions.

* A Go `map[string]string` is either `nil` (the zero value of the type) or a map
  made with `make`.  A made map is a finite map (`Finmap`): an unordered set of
  entries with unique keys, so two maps are equal exactly when they hold the same
  entries.  `m[key] = message` is `Finmap.insert`, the comma-ok read `m[key]` is
  `Finmap.lookup`, and `len(m)` is the number of keys.
* Methods with a pointer receiver are written in state-passing style: they take
  the Validator before the call and return the Validator after it.  A method that
  can fail at run time returns an `Except Panic _`.
* A Go `string` is read as its sequence of runes, a Lean `String`.
* A type parameter `T comparable` is a type with Go's `==` and map-key hashing, both of
  which may fail at run time on interface values (class `comparable`).
-/

namespace validator

/-! ## The Validator -/

/-- The entries of a made `map[string]string`. -/
abbrev Entries := Finmap (fun _ : String => String)

/-- Run-time failures the package's code can raise. -/
inductive Panic where
  /-- Go's "assignment to entry in nil map". -/
  | assignToNilMap
  /-- Go's "comparing uncomparable type": `==` on two interface values whose common
  dynamic type is not comparable. -/
  | comparingUncomparable
  /-- Go's "hash of unhashable type": a map key whose dynamic type is not comparable. -/
  | hashOfUnhashable
  deriving DecidableEq, Repr

/-- `type Validator struct { Errors map[string]string }`; `none` is the nil map. -/
structure Validator where
  Errors : Option Entries
  deriving DecidableEq

/-- `func New() *Validator { return &Validator{Errors: make(map[string]string)} }`. -/
def New : Validator := ⟨some ∅⟩

/-- `len(v.Errors)`; the length of a nil map is 0. -/
def Validator.len (v : Validator) : Nat :=
  match v.Errors with
  | none => 0
  | some m => m.keys.card

/-- The comma-ok read `v.Errors[key]`: `some message` when the key exists, `none`
otherwise; reading a nil map finds nothing and does not fail. -/
def Validator.index (v : Validator) (key : String) : Option String :=
  match v.Errors with
  | none => none
  | some m => m.lookup key

/-- `func (v *Validator) Valid() bool { return len(v.Errors) == 0 }`: the returned
boolean together with the Validator after the call. -/
def Validator.Valid (v : Validator) : Bool × Validator :=
  (v.len == 0, v)

/-- `func (v *Validator) AddError(key, message string)`:
`if _, exists := v.Errors[key]; !exists { v.Errors[key] = message }`.
The assignment fails when the map is nil. -/
def Validator.AddError (v : Validator) (key message : String) : Except Panic Validator :=
  if (v.index key).isSome then
    .ok v
  else
    match v.Errors with
    | none => .error Panic.assignToNilMap
    | some m => .ok ⟨some (m.insert key message)⟩

/-- `func (v *Validator) Check(ok bool, key, message string)`:
`if !ok { v.AddError(key, message) }`. -/
def Validator.Check (v : Validator) (ok : Bool) (key message : String) :
    Except Panic Validator :=
  if !ok then v.AddError key message else .ok v

/-- One call of a mutating method, with its arguments. -/
inductive Call where
  | AddError (key message : String)
  | Check (ok : Bool) (key message : String)
  deriving DecidableEq, Repr

/-- The key argument of a call. -/
def Call.key : Call → String
  | .AddError key _ => key
  | .Check _ key _ => key

/-- The message argument of a call. -/
def Call.message : Call → String
  | .AddError _ message => message
  | .Check _ _ message => message

/-- A call reports a failure when it is an `AddError` or a `Check` with `ok = false`. -/
def Call.reports : Call → Bool
  | .AddError _ _ => true
  | .Check ok _ _ => !ok

/-- Perform one call on a Validator. -/
def Validator.exec (v : Validator) : Call → Except Panic Validator
  | .AddError key message => v.AddError key message
  | .Check ok key message => v.Check ok key message

/-- Perform a sequence of calls, first to last; a failing call stops the run. -/
def Validator.run (v : Validator) : List Call → Except Panic Validator
  | [] => .ok v
  | c :: cs =>
    match v.exec c with
    | .ok v' => v'.run cs
    | .error e => .error e

/-! ## Comparable types

`PermittedValue` and `Unique` are generic over `T comparable`.  What the code does with a
value of such a type is to compare it with `==` and to use it as a map key, and both are
defined by the language per type: `==` need not be reflexive (a float64 NaN is not equal
to itself), and on interface values `==` and the hashing of a map key fail at run time
when the dynamic type is not comparable. -/

/-- A type that satisfies Go's constraint `comparable`. -/
class comparable (T : Type) where
  /-- The result of `a == b`; `none` when the comparison fails at run time. -/
  eq : T → T → Option Bool
  /-- Whether the value can be hashed as a map key; when it cannot, using it as a key
  fails at run time. -/
  hashable : T → Bool
  /-- The operands of `==` can be exchanged. -/
  eq_symm : ∀ a b, eq a b = eq b a

/-- Go's `string`: compared by content. -/
instance : comparable String where
  eq a b := some (decide (a = b))
  hashable _ := true
  eq_symm _ _ := congrArg some (decide_eq_decide.mpr ⟨Eq.symm, Eq.symm⟩)

/-- Go's `int`: compared by value. -/
instance : comparable Int where
  eq a b := some (decide (a = b))
  hashable _ := true
  eq_symm _ _ := congrArg some (decide_eq_decide.mpr ⟨Eq.symm, Eq.symm⟩)

/-- A `float64`, given by its IEEE 754 bit pattern (the low 64 bits of `bits`). -/
structure Float64 where
  bits : Nat

/-- The 64-bit word of a `float64`. -/
def Float64.word (f : Float64) : Nat := f.bits % 2 ^ 64

/-- NaN: all eleven exponent bits set and a non-zero fraction. -/
def Float64.isNaN (f : Float64) : Bool :=
  (f.word / 2 ^ 52) % 2048 == 2047 && f.word % 2 ^ 52 != 0

/-- Positive or negative zero: every bit but the sign is clear. -/
def Float64.isZero (f : Float64) : Bool := f.word % 2 ^ 63 == 0

/-- `a == b` on `float64`: false when either operand is NaN, true for two zeros of either
sign, and otherwise equality of the bit patterns. -/
def Float64.eq (a b : Float64) : Bool :=
  !a.isNaN && !b.isNaN && ((a.isZero && b.isZero) || a.word == b.word)

/-- The value returned by Go's `math.NaN()`. -/
def Float64.NaN : Float64 := ⟨0x7FF8000000000001⟩

/-- Go's `float64`. -/
instance : comparable Float64 where
  eq a b := some (Float64.eq a b)
  hashable _ := true
  eq_symm a b := by
    show some (Float64.eq a b) = some (Float64.eq b a)
    unfold Float64.eq
    rw [show (a.word == b.word) = (b.word == a.word) from Bool.beq_comm]
    cases a.isNaN <;> cases b.isNaN <;> cases a.isZero <;> cases b.isZero <;> rfl

/-- Values of the interface type `any` (which satisfies `comparable`), for the dynamic
types `int`, `string`, `float64` and `[]int`; the last is not a comparable type. -/
inductive Any where
  | int (n : Int)
  | string (s : String)
  | float64 (f : Float64)
  | ints (xs : List Int)

/-- `a == b` on interface values: false when the dynamic types differ, the comparison of
the dynamic values when their common type is comparable, and a run-time failure when it
is not. -/
def Any.eq : Any → Any → Option Bool
  | .int a, .int b => comparable.eq a b
  | .string a, .string b => comparable.eq a b
  | .float64 a, .float64 b => comparable.eq a b
  | .ints _, .ints _ => none
  | _, _ => some false

/-- An interface value can be hashed unless its dynamic type is not comparable. -/
def Any.hashable : Any → Bool
  | .ints _ => false
  | _ => true

/-- Go's `any`. -/
instance : comparable Any where
  eq := Any.eq
  hashable := Any.hashable
  eq_symm a b := by
    cases a <;> cases b <;> first | rfl | exact comparable.eq_symm _ _

/-! ## Predicate helpers -/

/-- `slices.Contains(s, v)`, that is `slices.Index(s, v) >= 0` with
`for i := range s { if v == s[i] { return i } }; return -1`: scans `s` left to right
for an element that `v` compares equal to. -/
def slices.Contains {T : Type} [comparable T] : List T → T → Except Panic Bool
  | [], _ => .ok false
  | x :: xs, v =>
    match comparable.eq v x with
    | none => .error Panic.comparingUncomparable
    | some true => .ok true
    | some false => slices.Contains xs v

/-- `func PermittedValue[T comparable](value T, permittedValues ...T) bool`. -/
def PermittedValue {T : Type} [comparable T] (value : T) (permittedValues : List T) :
    Except Panic Bool :=
  slices.Contains permittedValues value

/-- The assignment `uniqueValues[key] = struct{}{}` on a made `map[T]struct{}`, given by
the list `m` of its keys.  The key is hashed first, which fails when it cannot be hashed;
a key that compares equal to a key of the map leaves the set of keys as it is, and any
other key is added (so a NaN, equal to no key, is added every time). -/
def Unique.assign {T : Type} [comparable T] (m : List T) (key : T) : Except Panic (List T) :=
  if comparable.hashable key then
    if m.any (fun e => comparable.eq e key == some true) then .ok m else .ok (m ++ [key])
  else
    .error Panic.hashOfUnhashable

/-- The loop `for _, value := range values { uniqueValues[value] = struct{}{} }` of
`Unique`, run on the map with keys `m`; `Unique` starts it from
`make(map[T]struct{})`, the map without keys. -/
def Unique.uniqueValues {T : Type} [comparable T] : List T → List T → Except Panic (List T)
  | m, [] => .ok m
  | m, value :: values =>
    match Unique.assign m value with
    | .ok m' => Unique.uniqueValues m' values
    | .error e => .error e

/-- `func Unique[T comparable](values []T) bool`:
`return len(values) == len(uniqueValues)`. -/
def Unique {T : Type} [comparable T] (values : List T) : Except Panic Bool :=
  match Unique.uniqueValues [] values with
  | .ok uniqueValues => .ok (values.length == uniqueValues.length)
  | .error e => .error e

/-! ## Regular expressions (Go's `regexp` package)

`Matches` hands its work to `(*regexp.Regexp).MatchString`.  The pattern language is
modelled by the syntax tree that `regexp/syntax` builds (the operators `EmailRX` uses)
and by a matcher that computes, for a position in the text, every position at which a
match of a sub-expression starting there can end.  A position is represented by the
part of the text that remains to be read. -/

/-- Syntax tree of a pattern: `OpCharClass`, `OpLiteral`, `OpBeginText` (`^` without the
`m` flag), `OpEndText` (`$` without the `m` flag: end of text only), `OpConcat`, `OpStar`,
`OpPlus`, `OpQuest` and `OpRepeat` (`{min,max}`).  A non-capturing group `(?:...)` leaves
no node of its own. -/
inductive Regexp where
  | CharClass (ranges : List (Char × Char))
  | Literal (c : Char)
  | BeginText
  | EndText
  | Concat (r₁ r₂ : Regexp)
  | Star (r : Regexp)
  | Plus (r : Regexp)
  | Quest (r : Regexp)
  | Repeat (r : Regexp) (min max : Nat)
  deriving Repr

/-- A rune belongs to a class when it lies in one of the class's inclusive ranges. -/
def Regexp.inClass (ranges : List (Char × Char)) (c : Char) : Bool :=
  ranges.any (fun r => decide (r.1 ≤ c) && decide (c ≤ r.2))

/-- Zero or more rounds of `f`, each round consuming at least one rune; `n` bounds the
number of rounds and is taken to be the length of the remaining text. -/
def Regexp.starIter (f : List Char → List (List Char)) : Nat → List Char → List (List Char)
  | 0, rest => [rest]
  | n + 1, rest =>
    ((f rest).filter (fun t => decide (t.length < rest.length))).flatMap
      (Regexp.starIter f n) ++ [rest]

/-- Between `min` and `max` rounds of `f`. -/
def Regexp.repeatIter (f : List Char → List (List Char)) :
    Nat → Nat → List Char → List (List Char)
  | 0, 0, rest => [rest]
  | 0, k + 1, rest => (f rest).flatMap (Regexp.repeatIter f 0 k) ++ [rest]
  | _ + 1, 0, _ => []
  | m + 1, k + 1, rest => (f rest).flatMap (Regexp.repeatIter f m k)

/-- All remainders `t` such that the pattern matches the runes between `rest` and `t`,
where `rest` is a suffix of the whole `text`. -/
def Regexp.ends (text : List Char) : Regexp → List Char → List (List Char)
  | .CharClass ranges, rest =>
    match rest with
    | c :: t => if Regexp.inClass ranges c then [t] else []
    | [] => []
  | .Literal c, rest =>
    match rest with
    | d :: t => if d = c then [t] else []
    | [] => []
  | .BeginText, rest => if rest.length = text.length then [rest] else []
  | .EndText, rest => if rest.isEmpty then [rest] else []
  | .Concat r₁ r₂, rest => (Regexp.ends text r₁ rest).flatMap (Regexp.ends text r₂)
  | .Star r, rest => Regexp.starIter (Regexp.ends text r) rest.length rest
  | .Plus r, rest =>
    (Regexp.ends text r rest).flatMap
      (fun t => Regexp.starIter (Regexp.ends text r) t.length t)
  | .Quest r, rest => Regexp.ends text r rest ++ [rest]
  | .Repeat r min max, rest => Regexp.repeatIter (Regexp.ends text r) min max rest

/-- `func (re *Regexp) MatchString(s string) bool`: reports whether `s` contains any
match of the pattern, starting at any position of `s`. -/
def Regexp.MatchString (re : Regexp) (s : String) : Bool :=
  s.toList.tails.any (fun rest => !(re.ends s.toList rest).isEmpty)

/-- The class `[a-zA-Z0-9.!#$%&'*+/=?^_BACKTICK{|}~-]` of the local part, item by item
(rune 39 is the apostrophe, rune 96 the backtick). -/
def EmailRX.localClass : List (Char × Char) :=
  [('a', 'z'), ('A', 'Z'), ('0', '9'), ('.', '.'), ('!', '!'), ('#', '#'), ('$', '$'),
   ('%', '%'), ('&', '&'), (Char.ofNat 39, Char.ofNat 39), ('*', '*'), ('+', '+'),
   ('/', '/'), ('=', '='), ('?', '?'), ('^', '^'), ('_', '_'),
   (Char.ofNat 96, Char.ofNat 96), ('{', '{'), ('|', '|'), ('}', '}'), ('~', '~'),
   ('-', '-')]

/-- The class `[a-zA-Z0-9]`. -/
def EmailRX.alnum : List (Char × Char) := [('a', 'z'), ('A', 'Z'), ('0', '9')]

/-- The class `[a-zA-Z0-9-]`. -/
def EmailRX.alnumHyphen : List (Char × Char) :=
  [('a', 'z'), ('A', 'Z'), ('0', '9'), ('-', '-')]

/-- The sub-pattern `[a-zA-Z0-9](?:[a-zA-Z0-9-]{0,61}[a-zA-Z0-9])?`, which occurs twice. -/
def EmailRX.label : Regexp :=
  .Concat (.CharClass EmailRX.alnum)
    (.Quest (.Concat (.Repeat (.CharClass EmailRX.alnumHyphen) 0 61)
      (.CharClass EmailRX.alnum)))

/-- The compiled pattern
`^[a-zA-Z0-9.!#$%&'*+/=?^_BACKTICK{|}~-]+@[a-zA-Z0-9](?:[a-zA-Z0-9-]{0,61}[a-zA-Z0-9])?`
`(?:\.[a-zA-Z0-9](?:[a-zA-Z0-9-]{0,61}[a-zA-Z0-9])?)*$`. -/
def EmailRX : Regexp :=
  .Concat .BeginText
    (.Concat (.Plus (.CharClass EmailRX.localClass))
      (.Concat (.Literal '@')
        (.Concat EmailRX.label
          (.Concat (.Star (.Concat (.Literal '.') EmailRX.label))
            .EndText))))

/-- `func Matches(value string, rx *regexp.Regexp) bool { return rx.MatchString(value) }`. -/
def Matches (value : String) (rx : Regexp) : Bool := rx.MatchString value

/-! ## The shape of an address, in the words of the specification -/

/-- An ASCII letter. -/
def EmailForm.letter (c : Char) : Prop := ('a' ≤ c ∧ c ≤ 'z') ∨ ('A' ≤ c ∧ c ≤ 'Z')

/-- An ASCII digit. -/
def EmailForm.digit (c : Char) : Prop := '0' ≤ c ∧ c ≤ '9'

/-- The punctuation admitted in a local part (rune 39 is the apostrophe, rune 96 the
backtick). -/
def EmailForm.specials : List Char :=
  ['.', '!', '#', '$', '%', '&', Char.ofNat 39, '*', '+', '/', '=', '?', '^', '_',
   Char.ofNat 96, '{', '|', '}', '~', '-']

/-- A character of a local part: a letter, a digit or one of the special characters. -/
def EmailForm.localChar (c : Char) : Prop :=
  EmailForm.letter c ∨ EmailForm.digit c ∨ c ∈ EmailForm.specials

/-- A character of a label: a letter, a digit or a hyphen. -/
def EmailForm.labelChar (c : Char) : Prop :=
  EmailForm.letter c ∨ EmailForm.digit c ∨ c = '-'

/-- A local part: non-empty, over the characters of a local part. -/
def EmailForm.validLocal (l : List Char) : Prop :=
  l ≠ [] ∧ ∀ c ∈ l, EmailForm.localChar c

/-- A label: 1 to 63 characters, letters, digits and hyphens only, starting and ending
with a letter or digit. -/
def EmailForm.validLabel (l : List Char) : Prop :=
  1 ≤ l.length ∧ l.length ≤ 63 ∧ (∀ c ∈ l, EmailForm.labelChar c) ∧
  (∃ c, l.head? = some c ∧ (EmailForm.letter c ∨ EmailForm.digit c)) ∧
  (∃ c, l.getLast? = some c ∧ (EmailForm.letter c ∨ EmailForm.digit c))

/-- The whole of `value` reads `local@label1.label2...labeln` with `n ≥ 1`. -/
def EmailForm (value : String) : Prop :=
  ∃ (loc : List Char) (labels : List (List Char)),
    labels ≠ [] ∧ EmailForm.validLocal loc ∧ (∀ l ∈ labels, EmailForm.validLabel l) ∧
    value.toList = loc ++ '@' :: List.intercalate ['.'] labels

/-! ## Auxiliary notions used in the proofs -/

/-- The message of the earliest call of the sequence that reports a failure under `key`. -/
def firstReport (key : String) : List Call → Option String
  | [] => none
  | c :: cs =>
    if c.reports = true ∧ c.key = key then some c.message else firstReport key cs

/-- The matcher step `f` consumes exactly the words of the language `P`: `b` is among the
remainders of `a` precisely when `a` is a word of `P` followed by `b`. -/
def Consumes (f : List Char → List (List Char)) (P : List Char → Prop) : Prop :=
  ∀ a b, b ∈ f a ↔ ∃ w, a = w ++ b ∧ P w

/-- The map after the loop, written without failure: a key that compares equal to a key
already present adds nothing, any other key is added. -/
def Unique.keysAfter {T : Type} [comparable T] : List T → List T → List T
  | m, [] => m
  | m, value :: values =>
    Unique.keysAfter
      (if m.any (fun e => comparable.eq e value == some true) then m else m ++ [value]) values

/-- The two checks of the end-to-end scenario: `Check(len(name) > 0, "name", ...)` with
`name` the empty string, then `Check(Matches("bad-email", EmailRX), "email", ...)`. -/
def scenario : List Call :=
  [Call.Check (decide ("".utf8ByteSize > 0)) "name" "must be provided",
   Call.Check (Matches "bad-email" EmailRX) "email" "must be valid"]

/-! ## Properties of the Validator -/

theorem index_mk (m : Entries) (key : String) :
    (Validator.mk (some m)).index key = m.lookup key := rfl

/-- On a made map `AddError` returns normally: the map is unchanged when `key` is present and
gains `key ↦ message` otherwise. -/
theorem AddError_made (m : Entries) (key message : String) :
    (Validator.mk (some m)).AddError key message =
      .ok ⟨some (if key ∈ m then m else m.insert key message)⟩ := by
  unfold Validator.AddError
  by_cases h : key ∈ m
  · have : ((Validator.mk (some m)).index key).isSome = true := by
      rw [index_mk]; exact Finmap.lookup_isSome.mpr h
    simp [this, h]
  · have : ((Validator.mk (some m)).index key).isSome = false := by
      rw [index_mk]
      cases hl : m.lookup key with
      | none => rfl
      | some b => exact absurd (Finmap.mem_of_lookup_eq_some hl) h
    simp [this, h]

/-- On a made map every call returns normally; only a reporting call on an absent key changes
the map. -/
theorem exec_made (m : Entries) (c : Call) :
    (Validator.mk (some m)).exec c =
      .ok ⟨some (if c.reports = true ∧ c.key ∉ m then m.insert c.key c.message else m)⟩ := by
  cases c with
  | AddError key message =>
    simp only [Validator.exec, AddError_made, Call.reports, Call.key, Call.message]
    by_cases h : key ∈ m <;> simp [h]
  | Check ok key message =>
    cases ok
    · simp only [Validator.exec, Validator.Check, AddError_made, Call.reports, Call.key,
        Call.message]
      by_cases h : key ∈ m <;> simp [h]
    · simp [Validator.exec, Validator.Check, Call.reports]

/-- A run on a made map completes, and each key finally reads its old entry if it had one
and otherwise the message of the earliest reporting call under that key. -/
theorem run_made (calls : List Call) (m : Entries) :
    ∃ m' : Entries, (Validator.mk (some m)).run calls = .ok ⟨some m'⟩ ∧
      ∀ k, m'.lookup k = (m.lookup k).orElse (fun _ => firstReport k calls) := by
  induction calls generalizing m with
  | nil =>
    refine ⟨m, rfl, fun k => ?_⟩
    cases m.lookup k <;> rfl
  | cons c cs ih =>
    obtain ⟨m', hrun, hlook⟩ :=
      ih (if c.reports = true ∧ c.key ∉ m then m.insert c.key c.message else m)
    refine ⟨m', ?_, fun k => ?_⟩
    · simp only [Validator.run, exec_made]
      exact hrun
    · rw [hlook k]
      by_cases hc : c.reports = true ∧ c.key ∉ m
      · rw [if_pos hc]
        by_cases hk : k = c.key
        · subst hk
          have hn : m.lookup c.key = none := Finmap.lookup_eq_none.mpr hc.2
          simp [Finmap.lookup_insert, hn, firstReport, hc.1]
        · rw [Finmap.lookup_insert_of_ne _ hk]
          have : ¬ (c.reports = true ∧ c.key = k) := fun h => hk h.2.symm
          simp [firstReport, this]
      · rw [if_neg hc]
        by_cases hk : c.reports = true ∧ c.key = k
        · obtain ⟨hr, rfl⟩ := hk
          have hmem : c.key ∈ m := by
            by_contra hne
            exact hc ⟨hr, hne⟩
          obtain ⟨b, hb⟩ := Finmap.mem_iff.mp hmem
          simp [hb]
        · simp [firstReport, hk]

theorem firstReport_eq_some_iff (key message : String) (calls : List Call) :
    firstReport key calls = some message ↔
      ∃ pre c post, calls = pre ++ c :: post ∧ c.reports = true ∧ c.key = key ∧
        c.message = message ∧ ∀ d ∈ pre, ¬ (d.reports = true ∧ d.key = key) := by
  induction calls with
  | nil => simp [firstReport]
  | cons c cs ih =>
    by_cases hc : c.reports = true ∧ c.key = key
    · simp only [firstReport, if_pos hc, Option.some.injEq]
      constructor
      · intro h
        exact ⟨[], c, cs, rfl, hc.1, hc.2, h, by simp⟩
      · rintro ⟨pre, d, post, heq, hr, hk, hm, hpre⟩
        cases pre with
        | nil =>
          simp only [List.nil_append, List.cons.injEq] at heq
          rw [heq.1]; exact hm
        | cons p ps =>
          simp only [List.cons_append, List.cons.injEq] at heq
          exact absurd hc (heq.1 ▸ hpre p (List.mem_cons_self _ _))
    · simp only [firstReport, if_neg hc, ih]
      constructor
      · rintro ⟨pre, d, post, heq, hr, hk, hm, hpre⟩
        refine ⟨c :: pre, d, post, by simp [heq], hr, hk, hm, ?_⟩
        intro e he
        rcases List.mem_cons.mp he with rfl | he
        · exact hc
        · exact hpre e he
      · rintro ⟨pre, d, post, heq, hr, hk, hm, hpre⟩
        cases pre with
        | nil =>
          simp only [List.nil_append, List.cons.injEq] at heq
          exact absurd ⟨hr, hk⟩ (heq.1 ▸ hc)
        | cons p ps =>
          simp only [List.cons_append, List.cons.injEq] at heq
          exact ⟨ps, d, post, heq.2, hr, hk, hm,
            fun e he => hpre e (List.mem_cons_of_mem _ he)⟩

theorem firstReport_isSome_iff (key : String) (calls : List Call) :
    (firstReport key calls).isSome = true ↔ ∃ c ∈ calls, c.reports = true ∧ c.key = key := by
  induction calls with
  | nil => simp [firstReport]
  | cons c cs ih =>
    by_cases hc : c.reports = true ∧ c.key = key
    · simp only [firstReport, if_pos hc, Option.isSome_some, true_iff]
      exact ⟨c, List.mem_cons_self _ _, hc⟩
    · simp only [firstReport, if_neg hc, ih, List.mem_cons, exists_eq_or_imp]
      constructor
      · exact fun h => Or.inr h
      · rintro (h | h)
        · exact absurd h hc
        · exact h

/-- The map has length 0 exactly when no key has an entry (nil map included). -/
theorem len_eq_zero_iff (v : Validator) : v.len = 0 ↔ ∀ key, v.index key = none := by
  obtain ⟨e⟩ := v
  cases e with
  | none => simp [Validator.len, Validator.index]
  | some m =>
    simp only [Validator.len, Validator.index, Finset.card_eq_zero, Finmap.lookup_eq_none]
    constructor
    · intro h key hk
      have := Finmap.mem_keys.mpr hk
      rw [h] at this
      exact absurd this (Finset.not_mem_empty _)
    · intro h
      exact Finset.eq_empty_of_forall_not_mem (fun k hk => h k (Finmap.mem_keys.mp hk))

theorem Valid_fst_iff (v : Validator) : (v.Valid).1 = true ↔ ∀ key, v.index key = none := by
  rw [← len_eq_zero_iff]
  simp [Validator.Valid]

theorem firstReport_addErrors (key : String) (l : List (Sigma fun _ : String => String)) :
    firstReport key (l.map (fun e => Call.AddError e.1 e.2)) = l.dlookup key := by
  induction l with
  | nil => rfl
  | cons e es ih =>
    obtain ⟨k, msg⟩ := e
    by_cases h : k = key
    · subst h
      simp [firstReport, Call.reports, Call.key, Call.message]
    · have hne : key ≠ (Sigma.mk k msg : Sigma fun _ : String => String).1 := fun e => h e.symm
      rw [List.dlookup_cons_ne es _ hne, ← ih]
      simp [firstReport, Call.reports, Call.key, h]

/-- The Validator states are the Validators whose map has been made: exactly these are
reached from `New()` by sequences of `AddError` and `Check` calls. -/
theorem reachable_iff_made (v : Validator) :
    (∃ calls, New.run calls = .ok v) ↔ ∃ m, v = ⟨some m⟩ := by
  constructor
  · rintro ⟨calls, h⟩
    obtain ⟨m', hrun, -⟩ := run_made calls ∅
    rw [show New = ⟨some ∅⟩ from rfl, hrun] at h
    exact ⟨m', (Except.ok.inj h).symm⟩
  · rintro ⟨m, rfl⟩
    induction m using Finmap.induction_on with
    | H s =>
      refine ⟨s.entries.map (fun e => Call.AddError e.1 e.2), ?_⟩
      obtain ⟨m', hrun, hlook⟩ := run_made (s.entries.map (fun e => Call.AddError e.1 e.2)) ∅
      rw [show New = ⟨some ∅⟩ from rfl, hrun]
      congr 3
      apply Finmap.ext_lookup
      intro k
      rw [hlook, Finmap.lookup_empty, Finmap.lookup_toFinmap, firstReport_addErrors]
      rfl

theorem no_reports_iff (calls : List Call) :
    (∀ c ∈ calls, c.reports = false) ↔
      (∀ key message, Call.AddError key message ∉ calls) ∧
      (∀ key message, Call.Check false key message ∉ calls) := by
  constructor
  · intro h
    exact ⟨fun key message hm => by simpa [Call.reports] using h _ hm,
      fun key message hm => by simpa [Call.reports] using h _ hm⟩
  · rintro ⟨h₁, h₂⟩ c hc
    cases c with
    | AddError key message => exact absurd hc (h₁ key message)
    | Check ok key message =>
      cases ok
      · exact absurd hc (h₂ key message)
      · rfl

/-! ### AddError, Check and Valid -/

/-- C1 (counterexample): the Validator whose map was never made has no entry for
"email", yet `AddError("email", "must be valid")` does not yield a map extended with
"email": the assignment to the nil map is a run-time failure. -/
theorem AddError_nil_map_not_extended :
    (Validator.mk none).index "email" = none ∧
    ¬ ∃ v, (Validator.mk none).AddError "email" "must be valid" = .ok v := by
  refine ⟨rfl, ?_⟩
  rintro ⟨v, h⟩
  cases h

/-- C1 (amended): on every Validator whose error map has been made (as in every
Validator returned by `New` and every state reached from it), `AddError(key, message)`
returns normally; when `key` already has an entry the state is exactly the one before
the call, and otherwise the new map is the old map extended with `key ↦ message`: `key`
reads `message` and every other key reads what it read before, present or absent. -/
theorem AddError_first_write (m : Entries) (key message : String) :
    (key ∈ m → (Validator.mk (some m)).AddError key message = .ok ⟨some m⟩) ∧
    (key ∉ m →
      (Validator.mk (some m)).AddError key message = .ok ⟨some (m.insert key message)⟩ ∧
      (Validator.mk (some (m.insert key message))).index key = some message ∧
      ∀ k, k ≠ key →
        (Validator.mk (some (m.insert key message))).index k
          = (Validator.mk (some m)).index k) := by
  refine ⟨fun h => ?_, fun h => ⟨?_, ?_, fun k hk => ?_⟩⟩
  · rw [AddError_made, if_pos h]
  · rw [AddError_made, if_neg h]
  · exact Finmap.lookup_insert m
  · exact Finmap.lookup_insert_of_ne m hk

theorem AddError_first_write_witness :
    ((Validator.mk (some (Finmap.singleton "email" "must be provided"))).AddError
        "email" "must be valid"
      = .ok ⟨some (Finmap.singleton "email" "must be provided")⟩) ∧
    (New.AddError "email" "must be valid"
        = .ok ⟨some (Finmap.insert "email" "must be valid" ∅)⟩ ∧
      (Validator.mk (some (Finmap.insert "email" "must be valid" ∅))).index "email"
        = some "must be valid") :=
  ⟨(AddError_first_write (Finmap.singleton "email" "must be provided")
      "email" "must be valid").1 ((Finmap.mem_singleton _ _ _).mpr rfl),
   ((AddError_first_write ∅ "email" "must be valid").2 (Finmap.not_mem_empty)).1,
   ((AddError_first_write ∅ "email" "must be valid").2 (Finmap.not_mem_empty)).2.1⟩

/-- C2 (counterexample): the Validator whose map was never made has no entry for
"name", and `AddError("name", "must be provided")` followed by
`AddError("name", "too long")` does not leave "must be provided" stored under "name":
the first call fails. -/
theorem AddError_twice_nil_map_fails :
    (Validator.mk none).index "name" = none ∧ "must be provided" ≠ "too long" ∧
    ¬ ∃ v, (Validator.mk none).run
        [Call.AddError "name" "must be provided", Call.AddError "name" "too long"] = .ok v ∧
      v.index "name" = some "must be provided" := by
  refine ⟨rfl, by decide, ?_⟩
  rintro ⟨v, h, -⟩
  cases h

/-- C2 (amended): on every Validator whose error map has been made and has no entry for
`key`, `AddError(key, m1)` followed by `AddError(key, m2)` with `m1 ≠ m2` returns normally
and the message stored under `key` is `m1`. -/
theorem AddError_twice_keeps_first (m : Entries) (key m1 m2 : String)
    (hkey : (Validator.mk (some m)).index key = none) (_hne : m1 ≠ m2) :
    ∃ v, (Validator.mk (some m)).run [Call.AddError key m1, Call.AddError key m2] = .ok v ∧
      v.index key = some m1 := by
  obtain ⟨m', hrun, hlook⟩ := run_made [Call.AddError key m1, Call.AddError key m2] m
  refine ⟨⟨some m'⟩, hrun, ?_⟩
  rw [index_mk] at hkey
  rw [index_mk, hlook key, hkey]
  simp [firstReport, Call.reports, Call.key, Call.message]

theorem AddError_twice_keeps_first_witness :
    ∃ v, New.run [Call.AddError "name" "must be provided", Call.AddError "name" "too long"]
        = .ok v ∧ v.index "name" = some "must be provided" :=
  AddError_twice_keeps_first ∅ "name" "must be provided" "too long" rfl (by decide)

/-- C3: for every Validator value, `Check(false, key, message)` has exactly the outcome of
`AddError(key, message)`, and `Check(true, key, message)` returns with the state
unchanged. -/
theorem Check_spec (v : Validator) (key message : String) :
    v.Check false key message = v.AddError key message ∧
    v.Check true key message = .ok v :=
  ⟨rfl, rfl⟩

/-- C4: for every Validator value, `Valid()` returns true if and only if the error map has
no entry under any key, and the Validator after the call is the Validator before it. -/
theorem Valid_iff_no_entries (v : Validator) :
    ((v.Valid).1 = true ↔ ∀ key, v.index key = none) ∧ (v.Valid).2 = v :=
  ⟨Valid_fst_iff v, rfl⟩

/-- C5: every finite sequence of `Check` and `AddError` calls applied to `New()` runs to
completion, and `Valid()` is then true if and only if the sequence contains no `AddError`
call and no `Check` call with `ok = false`. -/
theorem Valid_after_run_iff (calls : List Call) :
    ∃ v, New.run calls = .ok v ∧
      ((v.Valid).1 = true ↔
        (∀ key message, Call.AddError key message ∉ calls) ∧
        (∀ key message, Call.Check false key message ∉ calls)) := by
  obtain ⟨m', hrun, hlook⟩ := run_made calls ∅
  refine ⟨⟨some m'⟩, hrun, ?_⟩
  have hidx : ∀ key, (Validator.mk (some m')).index key = firstReport key calls := by
    intro key
    rw [index_mk, hlook, Finmap.lookup_empty]
    rfl
  rw [Valid_fst_iff, ← no_reports_iff]
  constructor
  · intro h c hc
    by_contra hr
    have hsome : (firstReport c.key calls).isSome = true :=
      (firstReport_isSome_iff _ _).mpr ⟨c, hc, by simpa using hr, rfl⟩
    rw [← hidx, h c.key] at hsome
    exact absurd hsome (by simp)
  · intro h key
    rw [hidx]
    cases hf : firstReport key calls with
    | none => rfl
    | some msg =>
      obtain ⟨c, hc, hr, -⟩ := (firstReport_isSome_iff key calls).mp (by simp [hf])
      rw [h c hc] at hr
      exact absurd hr (by simp)

/-- C6: every finite sequence of `Check` and `AddError` calls applied to `New()` runs to
completion; the final error map has an entry for a key if and only if some `AddError`
call or `Check` call with `ok = false` of the sequence used that key, and the message
stored under a key is `message` if and only if the earliest such call for that key
carried `message`. -/
theorem run_records_earliest (calls : List Call) :
    ∃ v, New.run calls = .ok v ∧
      (∀ key, (v.index key).isSome = true ↔
        ∃ c ∈ calls, c.reports = true ∧ c.key = key) ∧
      (∀ key message, v.index key = some message ↔
        ∃ pre c post, calls = pre ++ c :: post ∧ c.reports = true ∧ c.key = key ∧
          c.message = message ∧ ∀ d ∈ pre, ¬ (d.reports = true ∧ d.key = key)) := by
  obtain ⟨m', hrun, hlook⟩ := run_made calls ∅
  have hidx : ∀ key, (Validator.mk (some m')).index key = firstReport key calls := by
    intro key
    rw [index_mk, hlook, Finmap.lookup_empty]
    rfl
  refine ⟨⟨some m'⟩, hrun, fun key => ?_, fun key message => ?_⟩
  · rw [hidx, firstReport_isSome_iff]
  · rw [hidx, firstReport_eq_some_iff]

/-! ## Properties of the predicate helpers -/

/-- When no comparison fails, the scan returns whether some element compares equal. -/
theorem slices_Contains_of_comparable {T : Type} [comparable T] (s : List T) (v : T)
    (h : ∀ x ∈ s, (comparable.eq v x).isSome = true) :
    ∃ b, slices.Contains s v = .ok b ∧ (b = true ↔ ∃ x ∈ s, comparable.eq v x = some true) := by
  induction s with
  | nil => exact ⟨false, rfl, by simp⟩
  | cons x xs ih =>
    obtain ⟨b, hb, hiff⟩ := ih (fun y hy => h y (List.mem_cons_of_mem _ hy))
    have hx := h x (List.mem_cons_self _ _)
    cases he : comparable.eq v x with
    | none => rw [he] at hx; cases hx
    | some r =>
      cases r with
      | true =>
        refine ⟨true, by simp [slices.Contains, he], ?_⟩
        simp only [true_iff]
        exact ⟨x, List.mem_cons_self _ _, he⟩
      | false =>
        refine ⟨b, by simp [slices.Contains, he, hb], ?_⟩
        rw [hiff]
        constructor
        · rintro ⟨y, hy, hyv⟩
          exact ⟨y, List.mem_cons_of_mem _ hy, hyv⟩
        · rintro ⟨y, hy, hyv⟩
          rcases List.mem_cons.mp hy with rfl | hy
          · rw [he] at hyv; cases hyv
          · exact ⟨y, hy, hyv⟩

theorem uniqueValues_of_hashable {T : Type} [comparable T] (values m : List T)
    (h : ∀ x ∈ values, comparable.hashable x = true) :
    Unique.uniqueValues m values = .ok (Unique.keysAfter m values) := by
  induction values generalizing m with
  | nil => rfl
  | cons x xs ih =>
    have hx := h x (List.mem_cons_self _ _)
    have hxs := fun y hy => h y (List.mem_cons_of_mem _ hy)
    by_cases ha : m.any (fun e => comparable.eq e x == some true) = true
    · simp only [Unique.uniqueValues, Unique.assign, hx, if_true, ha, Unique.keysAfter]
      exact ih m hxs
    · simp only [Unique.uniqueValues, Unique.assign, hx, if_true, ha, Unique.keysAfter]
      exact ih _ hxs

theorem keysAfter_length {T : Type} [comparable T] (values m : List T) :
    (Unique.keysAfter m values).length ≤ m.length + values.length ∧
    ((Unique.keysAfter m values).length = m.length + values.length ↔
      values.Pairwise (fun a b => comparable.eq a b ≠ some true) ∧
      ∀ e ∈ m, ∀ v ∈ values, comparable.eq e v ≠ some true) := by
  induction values generalizing m with
  | nil => simp [Unique.keysAfter]
  | cons x xs ih =>
    by_cases ha : m.any (fun e => comparable.eq e x == some true) = true
    · obtain ⟨hle, -⟩ := ih m
      simp only [Unique.keysAfter, ha, if_true, List.length_cons]
      refine ⟨by omega, ?_⟩
      constructor
      · intro h; omega
      · rintro ⟨-, hm⟩
        obtain ⟨e, he, hex⟩ := List.any_eq_true.mp ha
        exact absurd (by simpa using hex) (hm e he x (List.mem_cons_self _ _))
    · obtain ⟨hle, hiff⟩ := ih (m ++ [x])
      simp only [Unique.keysAfter, ha, Bool.false_eq_true, if_false, List.length_cons]
      simp only [List.length_append, List.length_singleton] at hle hiff
      have hnone : ∀ e ∈ m, comparable.eq e x ≠ some true := by
        intro e he hex
        apply ha
        exact List.any_eq_true.mpr ⟨e, he, by simp [hex]⟩
      refine ⟨by omega, ?_⟩
      rw [show m.length + (xs.length + 1) = m.length + 1 + xs.length by omega, hiff,
        List.pairwise_cons]
      constructor
      · rintro ⟨hp, hm⟩
        refine ⟨⟨fun v hv => hm x (by simp) v hv, hp⟩, ?_⟩
        intro e he v hv
        rcases List.mem_cons.mp hv with rfl | hv
        · exact hnone e he
        · exact hm e (by simp [he]) v hv
      · rintro ⟨⟨hx, hp⟩, hm⟩
        refine ⟨hp, ?_⟩
        intro e he v hv
        rcases List.mem_append.mp he with he | he
        · exact hm e he v (List.mem_cons_of_mem _ hv)
        · rw [List.mem_singleton.mp he]
          exact hx v hv

/-- On hashable values `Unique` returns, and it returns true exactly when no value compares
equal to a later one. -/
theorem Unique_of_hashable {T : Type} [comparable T] (values : List T)
    (h : ∀ x ∈ values, comparable.hashable x = true) :
    ∃ b, Unique values = .ok b ∧
      (b = true ↔ values.Pairwise (fun a b => comparable.eq a b ≠ some true)) := by
  refine ⟨values.length == (Unique.keysAfter [] values).length, ?_, ?_⟩
  · simp only [Unique, uniqueValues_of_hashable values [] h]
  · obtain ⟨-, hiff⟩ := keysAfter_length values []
    simp only [List.length_nil, Nat.zero_add, List.not_mem_nil, false_imp_iff, implies_true,
      and_true] at hiff
    rw [beq_iff_eq, ← hiff]
    exact eq_comm

/-- A NaN is not among the permitted values even when NaN is listed, and two zeros of
different sign are one key. -/
theorem NaN_and_zero_examples :
    PermittedValue Float64.NaN [Float64.NaN] = .ok false ∧
    PermittedValue (Float64.mk 0) [Float64.mk (2 ^ 63)] = .ok true ∧
    Unique [Float64.mk 0, Float64.mk (2 ^ 63)] = .ok false :=
  ⟨rfl, rfl, rfl⟩

/-- C7 (counterexample): with `T` the interface type `any`, `PermittedValue` of the slice
value `[]int{1}` against the one permitted value `[]int{1}` does not return: the
comparison `value == permittedValues[0]` fails at run time. -/
theorem PermittedValue_panics_on_uncomparable :
    PermittedValue (Any.ints [1]) [Any.ints [1]] = .error Panic.comparingUncomparable ∧
    ¬ ∃ b, PermittedValue (Any.ints [1]) [Any.ints [1]] = .ok b := by
  refine ⟨rfl, ?_⟩
  rintro ⟨b, h⟩
  cases h

/-- C7 (amended): for every value and every list of permitted values of a comparable type
such that comparing the value with the elements of the list does not fail at run time,
`PermittedValue(value, permittedValues...)` returns, and it returns true if and only if
`value == p` holds for at least one element `p` of the list; for the empty list it
returns false for every value. -/
theorem PermittedValue_iff {T : Type} [comparable T] (value : T) (permittedValues : List T)
    (h : ∀ p ∈ permittedValues, (comparable.eq value p).isSome = true) :
    (∃ b, PermittedValue value permittedValues = .ok b ∧
      (b = true ↔ ∃ p ∈ permittedValues, comparable.eq value p = some true)) ∧
    PermittedValue value ([] : List T) = .ok false :=
  ⟨slices_Contains_of_comparable permittedValues value h, rfl⟩

theorem PermittedValue_iff_witness :
    (∃ b, PermittedValue "read" ["write", "read"] = .ok b ∧
      (b = true ↔ ∃ p ∈ ["write", "read"], comparable.eq "read" p = some true)) ∧
    PermittedValue "read" ([] : List String) = .ok false :=
  PermittedValue_iff "read" ["write", "read"] (fun _ _ => rfl)

/-- C8 (counterexample): with `T` the interface type `any`, `Unique` of the two different
slice values `[]int{1}` and `[]int{2}` does not return true: the first map insert fails at
run time, the key cannot be hashed. -/
theorem Unique_panics_on_unhashable :
    Unique [Any.ints [1], Any.ints [2]] = .error Panic.hashOfUnhashable ∧
    ¬ ∃ b, Unique [Any.ints [1], Any.ints [2]] = .ok b := by
  refine ⟨rfl, ?_⟩
  rintro ⟨b, h⟩
  cases h

/-- C8 (amended): for every slice of values of a comparable type each of which can be used
as a map key without a run-time failure, `Unique(values)` returns, and it returns true if
and only if no two different positions of the slice hold values that compare equal
with `==`. -/
theorem Unique_iff_pairwise_distinct {T : Type} [comparable T] (values : List T)
    (h : ∀ x ∈ values, comparable.hashable x = true) :
    ∃ b, Unique values = .ok b ∧
      (b = true ↔ ∀ i j : Fin values.length, i ≠ j →
        comparable.eq (values.get i) (values.get j) ≠ some true) := by
  obtain ⟨b, hb, hiff⟩ := Unique_of_hashable values h
  refine ⟨b, hb, ?_⟩
  rw [hiff, List.pairwise_iff_get]
  constructor
  · intro hp i j hij
    rcases Nat.lt_or_gt_of_ne (fun e => hij (Fin.ext e)) with hlt | hgt
    · exact hp i j hlt
    · rw [comparable.eq_symm]
      exact hp j i hgt
  · intro hp i j hij
    exact hp i j (fun e => by rw [e] at hij; exact Nat.lt_irrefl _ hij)

theorem Unique_iff_pairwise_distinct_witness :
    ∃ b, Unique ["name", "email", "name"] = .ok b ∧
      (b = true ↔ ∀ i j : Fin ["name", "email", "name"].length, i ≠ j →
        comparable.eq (["name", "email", "name"].get i) (["name", "email", "name"].get j)
          ≠ some true) :=
  Unique_iff_pairwise_distinct ["name", "email", "name"] (fun _ _ => rfl)

/-! ## The matcher and the language of `EmailRX` -/

theorem consumes_charClass (text : List Char) (ranges : List (Char × Char)) :
    Consumes (Regexp.ends text (.CharClass ranges))
      (fun w => ∃ c, w = [c] ∧ Regexp.inClass ranges c = true) := by
  intro a b
  cases a with
  | nil => simp [Regexp.ends]
  | cons d t =>
    by_cases h : Regexp.inClass ranges d = true
    · simp only [Regexp.ends, if_pos h, List.mem_singleton]
      constructor
      · rintro rfl
        exact ⟨[d], rfl, d, rfl, h⟩
      · rintro ⟨w, hw, c, rfl, -⟩
        simp only [List.singleton_append, List.cons.injEq] at hw
        exact hw.2.symm
    · simp only [Regexp.ends, if_neg h, List.not_mem_nil, false_iff]
      rintro ⟨w, hw, c, rfl, hc⟩
      simp only [List.singleton_append, List.cons.injEq] at hw
      exact h (hw.1 ▸ hc)

theorem consumes_literal (text : List Char) (c : Char) :
    Consumes (Regexp.ends text (.Literal c)) (fun w => w = [c]) := by
  intro a b
  cases a with
  | nil => simp [Regexp.ends]
  | cons d t =>
    by_cases h : d = c
    · simp only [Regexp.ends, if_pos h, List.mem_singleton]
      constructor
      · rintro rfl
        exact ⟨[c], by simp [h], rfl⟩
      · rintro ⟨w, hw, rfl⟩
        simp only [List.singleton_append, List.cons.injEq] at hw
        exact hw.2.symm
    · simp only [Regexp.ends, if_neg h, List.not_mem_nil, false_iff]
      rintro ⟨w, hw, rfl⟩
      simp only [List.singleton_append, List.cons.injEq] at hw
      exact h hw.1

theorem consumes_concat {text : List Char} {r₁ r₂ : Regexp} {P Q : List Char → Prop}
    (h₁ : Consumes (Regexp.ends text r₁) P) (h₂ : Consumes (Regexp.ends text r₂) Q) :
    Consumes (Regexp.ends text (.Concat r₁ r₂)) (fun w => ∃ u v, w = u ++ v ∧ P u ∧ Q v) := by
  intro a b
  simp only [Regexp.ends, List.mem_flatMap]
  constructor
  · rintro ⟨m, hm, hb⟩
    obtain ⟨u, rfl, hu⟩ := (h₁ a m).mp hm
    obtain ⟨v, rfl, hv⟩ := (h₂ m b).mp hb
    exact ⟨u ++ v, by simp, u, v, rfl, hu, hv⟩
  · rintro ⟨w, rfl, u, v, rfl, hu, hv⟩
    exact ⟨v ++ b, (h₁ _ _).mpr ⟨u, by simp, hu⟩, (h₂ _ _).mpr ⟨v, rfl, hv⟩⟩

theorem consumes_quest {text : List Char} {r : Regexp} {P : List Char → Prop}
    (h : Consumes (Regexp.ends text r) P) :
    Consumes (Regexp.ends text (.Quest r)) (fun w => P w ∨ w = []) := by
  intro a b
  simp only [Regexp.ends, List.mem_append, List.mem_singleton]
  constructor
  · rintro (hb | rfl)
    · obtain ⟨w, rfl, hw⟩ := (h a b).mp hb
      exact ⟨w, rfl, Or.inl hw⟩
    · exact ⟨[], rfl, Or.inr rfl⟩
  · rintro ⟨w, rfl, hw | rfl⟩
    · exact Or.inl ((h _ _).mpr ⟨w, rfl, hw⟩)
    · exact Or.inr rfl

theorem repeatIter_zero_consumes {f : List Char → List (List Char)} {P : List Char → Prop}
    (h : Consumes f P) (k : Nat) :
    Consumes (Regexp.repeatIter f 0 k)
      (fun w => ∃ ws : List (List Char), ws.length ≤ k ∧ w = ws.flatten ∧ ∀ x ∈ ws, P x) := by
  induction k with
  | zero =>
    intro a b
    simp only [Regexp.repeatIter, List.mem_singleton, Nat.le_zero_eq, List.length_eq_zero]
    constructor
    · rintro rfl
      exact ⟨[], rfl, [], rfl, rfl, by simp⟩
    · rintro ⟨w, rfl, ws, rfl, rfl, -⟩
      rfl
  | succ k ih =>
    intro a b
    simp only [Regexp.repeatIter, List.mem_append, List.mem_flatMap, List.mem_singleton]
    constructor
    · rintro (⟨m, hm, hb⟩ | rfl)
      · obtain ⟨u, rfl, hu⟩ := (h a m).mp hm
        obtain ⟨w, rfl, ws, hlen, rfl, hws⟩ := (ih m b).mp hb
        refine ⟨u ++ ws.flatten, by simp, u :: ws, by simpa using hlen, by simp, ?_⟩
        intro x hx
        rcases List.mem_cons.mp hx with rfl | hx
        · exact hu
        · exact hws x hx
      · exact ⟨[], rfl, [], by simp, rfl, by simp⟩
    · rintro ⟨w, rfl, ws, hlen, rfl, hws⟩
      cases ws with
      | nil => exact Or.inr rfl
      | cons x xs =>
        refine Or.inl ⟨xs.flatten ++ b, (h _ _).mpr ⟨x, by simp, hws x (by simp)⟩, ?_⟩
        refine (ih _ _).mpr ⟨xs.flatten, rfl, xs, ?_, rfl, fun y hy => hws y (by simp [hy])⟩
        simpa using hlen

/-- With enough rounds allowed, `starIter` reaches exactly the remainders left after a
sequence of words of `P`. -/
theorem starIter_consumes {f : List Char → List (List Char)} {P : List Char → Prop}
    (h : Consumes f P) (hP : ∀ w, P w → w ≠ []) (n : Nat) (a b : List Char)
    (hn : a.length ≤ n) :
    b ∈ Regexp.starIter f n a ↔
      ∃ ws : List (List Char), a = ws.flatten ++ b ∧ ∀ x ∈ ws, P x := by
  induction n generalizing a with
  | zero =>
    have ha : a = [] := List.length_eq_zero.mp (Nat.le_zero.mp hn)
    subst ha
    simp only [Regexp.starIter, List.mem_singleton]
    constructor
    · rintro rfl
      exact ⟨[], rfl, by simp⟩
    · rintro ⟨ws, hws, -⟩
      have := List.append_eq_nil.mp hws.symm
      exact this.2
  | succ n ih =>
    simp only [Regexp.starIter, List.mem_append, List.mem_flatMap, List.mem_filter,
      decide_eq_true_eq, List.mem_singleton]
    constructor
    · rintro (⟨m, ⟨hm, hlt⟩, hb⟩ | rfl)
      · obtain ⟨u, rfl, hu⟩ := (h a m).mp hm
        obtain ⟨ws, rfl, hws⟩ := (ih m (by omega)).mp hb
        refine ⟨u :: ws, by simp, ?_⟩
        intro x hx
        rcases List.mem_cons.mp hx with rfl | hx
        · exact hu
        · exact hws x hx
      · exact ⟨[], rfl, by simp⟩
    · rintro ⟨ws, rfl, hws⟩
      cases ws with
      | nil => exact Or.inr rfl
      | cons x xs =>
        have hx : x ≠ [] := hP x (hws x (by simp))
        have hxl : 0 < x.length := List.length_pos.mpr hx
        refine Or.inl ⟨xs.flatten ++ b, ⟨(h _ _).mpr ⟨x, by simp, hws x (by simp)⟩, ?_⟩, ?_⟩
        · simp only [List.flatten_cons, List.length_append]
          omega
        · refine (ih _ ?_).mpr ⟨xs, rfl, fun y hy => hws y (by simp [hy])⟩
          simp only [List.flatten_cons, List.length_append] at hn ⊢
          omega

theorem consumes_star {text : List Char} {r : Regexp} {P : List Char → Prop}
    (h : Consumes (Regexp.ends text r) P) (hP : ∀ w, P w → w ≠ []) :
    Consumes (Regexp.ends text (.Star r))
      (fun w => ∃ ws : List (List Char), w = ws.flatten ∧ ∀ x ∈ ws, P x) := by
  intro a b
  simp only [Regexp.ends]
  rw [starIter_consumes h hP a.length a b (Nat.le_refl _)]
  constructor
  · rintro ⟨ws, rfl, hws⟩
    exact ⟨ws.flatten, rfl, ws, rfl, hws⟩
  · rintro ⟨w, rfl, ws, rfl, hws⟩
    exact ⟨ws, rfl, hws⟩

theorem consumes_plus {text : List Char} {r : Regexp} {P : List Char → Prop}
    (h : Consumes (Regexp.ends text r) P) (hP : ∀ w, P w → w ≠ []) :
    Consumes (Regexp.ends text (.Plus r))
      (fun w => ∃ (u : List Char) (ws : List (List Char)),
        w = u ++ ws.flatten ∧ P u ∧ ∀ x ∈ ws, P x) := by
  intro a b
  simp only [Regexp.ends, List.mem_flatMap]
  constructor
  · rintro ⟨m, hm, hb⟩
    obtain ⟨u, rfl, hu⟩ := (h a m).mp hm
    obtain ⟨ws, rfl, hws⟩ := (starIter_consumes h hP m.length m b (Nat.le_refl _)).mp hb
    exact ⟨u ++ ws.flatten, by simp, u, ws, rfl, hu, hws⟩
  · rintro ⟨w, rfl, u, ws, rfl, hu, hws⟩
    refine ⟨ws.flatten ++ b, (h _ _).mpr ⟨u, by simp, hu⟩, ?_⟩
    exact (starIter_consumes h hP _ _ b (Nat.le_refl _)).mpr ⟨ws, rfl, hws⟩

theorem char_le_antisymm_iff (a c : Char) : (a ≤ c ∧ c ≤ a) ↔ c = a :=
  ⟨fun h => le_antisymm h.2 h.1, fun h => h ▸ ⟨le_refl _, le_refl _⟩⟩

theorem inClass_alnum_iff (c : Char) :
    Regexp.inClass EmailRX.alnum c = true ↔ (EmailForm.letter c ∨ EmailForm.digit c) := by
  simp only [Regexp.inClass, EmailRX.alnum, List.any_cons, List.any_nil, Bool.or_false,
    Bool.or_eq_true, Bool.and_eq_true, decide_eq_true_eq, EmailForm.letter, EmailForm.digit]
  tauto

theorem inClass_alnumHyphen_iff (c : Char) :
    Regexp.inClass EmailRX.alnumHyphen c = true ↔ EmailForm.labelChar c := by
  simp only [Regexp.inClass, EmailRX.alnumHyphen, List.any_cons, List.any_nil, Bool.or_false,
    Bool.or_eq_true, Bool.and_eq_true, decide_eq_true_eq, EmailForm.labelChar,
    EmailForm.letter, EmailForm.digit, char_le_antisymm_iff]
  tauto

theorem inClass_localClass_iff (c : Char) :
    Regexp.inClass EmailRX.localClass c = true ↔ EmailForm.localChar c := by
  simp only [Regexp.inClass, EmailRX.localClass, List.any_cons, List.any_nil, Bool.or_false,
    Bool.or_eq_true, Bool.and_eq_true, decide_eq_true_eq, EmailForm.localChar,
    EmailForm.letter, EmailForm.digit, EmailForm.specials, char_le_antisymm_iff,
    List.mem_cons, List.mem_singleton, List.not_mem_nil, or_false, or_assoc]

theorem flatten_singletons {C : Char → Prop} (ws : List (List Char))
    (h : ∀ x ∈ ws, ∃ c, x = [c] ∧ C c) :
    ws.flatten.length = ws.length ∧ ∀ c ∈ ws.flatten, C c := by
  induction ws with
  | nil => simp
  | cons x xs ih =>
    obtain ⟨c, rfl, hc⟩ := h x (by simp)
    obtain ⟨hl, hall⟩ := ih (fun y hy => h y (by simp [hy]))
    refine ⟨by simp [hl], ?_⟩
    intro d hd
    simp only [List.flatten_cons, List.singleton_append, List.mem_cons] at hd
    rcases hd with rfl | hd
    · exact hc
    · exact hall d hd

theorem singletons_flatten {C : Char → Prop} (w : List Char) (h : ∀ c ∈ w, C c) :
    (w.map (fun c => [c])).flatten = w ∧ (w.map (fun c => [c])).length = w.length ∧
      ∀ x ∈ w.map (fun c => [c]), ∃ c, x = [c] ∧ C c := by
  refine ⟨?_, by simp, ?_⟩
  · induction w with
    | nil => rfl
    | cons c t ih => simp [ih (fun d hd => h d (by simp [hd]))]
  · intro x hx
    obtain ⟨c, hc, rfl⟩ := List.mem_map.mp hx
    exact ⟨c, rfl, h c hc⟩

/-- The words the label sub-pattern consumes, read off its syntax tree. -/
theorem consumes_label (text : List Char) :
    Consumes (Regexp.ends text EmailRX.label) EmailForm.validLabel := by
  have hA := consumes_charClass text EmailRX.alnum
  have hH := repeatIter_zero_consumes (consumes_charClass text EmailRX.alnumHyphen) 61
  have hR : Consumes (Regexp.ends text (.Repeat (.CharClass EmailRX.alnumHyphen) 0 61)) _ := hH
  have hL := consumes_concat hA (consumes_quest (consumes_concat hR hA))
  intro a b
  rw [show Regexp.ends text EmailRX.label = Regexp.ends text
      (.Concat (.CharClass EmailRX.alnum)
        (.Quest (.Concat (.Repeat (.CharClass EmailRX.alnumHyphen) 0 61)
          (.CharClass EmailRX.alnum)))) from rfl, hL a b]
  constructor
  · rintro ⟨w, rfl, u, v, rfl, ⟨c, rfl, hc⟩, hv⟩
    refine ⟨_, rfl, ?_⟩
    have hc' := (inClass_alnum_iff c).mp hc
    have hcl : EmailForm.labelChar c := by
      rcases hc' with h | h
      · exact Or.inl h
      · exact Or.inr (Or.inl h)
    rcases hv with ⟨u', v', rfl, ⟨ws, hlen, rfl, hws⟩, d, rfl, hd⟩ | rfl
    · have hd' := (inClass_alnum_iff d).mp hd
      have hdl : EmailForm.labelChar d := by
        rcases hd' with h | h
        · exact Or.inl h
        · exact Or.inr (Or.inl h)
      obtain ⟨hl, hall⟩ := flatten_singletons ws hws
      refine ⟨by simp, ?_, ?_, ⟨c, by simp, hc'⟩, ⟨d, ?_, hd'⟩⟩
      · simp only [List.singleton_append, List.length_cons, List.length_append,
          List.length_singleton, List.length_nil, hl]
        omega
      · intro x hx
        simp only [List.singleton_append, List.mem_cons, List.mem_append,
          List.mem_singleton, List.not_mem_nil, or_false] at hx
        rcases hx with rfl | hx | rfl
        · exact hcl
        · exact (inClass_alnumHyphen_iff x).mp (hall x hx)
        · exact hdl
      · exact (List.getLast?_append_of_ne_nil ([c] ++ ws.flatten) (by simp)).trans (by simp)
    · exact ⟨by simp, by simp, by simpa using hcl, ⟨c, by simp, hc'⟩, ⟨c, by simp, hc'⟩⟩
  · rintro ⟨w, rfl, hl1, hl63, hall, ⟨c, hhead, hc⟩, ⟨d, hlast, hd⟩⟩
    refine ⟨w, rfl, ?_⟩
    cases w with
    | nil => simp at hl1
    | cons c' t =>
      simp only [List.head?_cons, Option.some.injEq] at hhead
      subst hhead
      refine ⟨[c'], t, rfl, ⟨c', rfl, (inClass_alnum_iff _).mpr hc⟩, ?_⟩
      rcases List.eq_nil_or_concat t with rfl | ⟨mid, e, ht⟩
      · exact Or.inr rfl
      · rw [List.concat_eq_append] at ht
        subst ht
        left
        have hlast' : (c' :: (mid ++ [e])).getLast? = some e :=
          (List.getLast?_append_of_ne_nil (c' :: mid) (by simp)).trans (by simp)
        rw [hlast'] at hlast
        simp only [Option.some.injEq] at hlast
        subst hlast
        have hmid : ∀ x ∈ mid, Regexp.inClass EmailRX.alnumHyphen x = true := fun x hx =>
          (inClass_alnumHyphen_iff x).mpr (hall x (by simp [hx]))
        obtain ⟨hf, hlen, hsing⟩ := singletons_flatten mid hmid
        refine ⟨mid, [e], rfl, ⟨mid.map (fun c => [c]), ?_, hf.symm, hsing⟩,
          e, rfl, (inClass_alnum_iff _).mpr hd⟩
        rw [hlen]
        simp only [List.length_cons, List.length_append, List.length_singleton] at hl63
        omega

theorem consumes_local (text : List Char) :
    Consumes (Regexp.ends text (.Plus (.CharClass EmailRX.localClass)))
      EmailForm.validLocal := by
  have hC := consumes_charClass text EmailRX.localClass
  have hP := consumes_plus hC (by rintro w ⟨c, rfl, -⟩; simp)
  intro a b
  rw [hP a b]
  constructor
  · rintro ⟨w, rfl, u, ws, rfl, ⟨c, rfl, hc⟩, hws⟩
    refine ⟨_, rfl, by simp, ?_⟩
    obtain ⟨-, hall⟩ := flatten_singletons ws hws
    intro x hx
    simp only [List.singleton_append, List.mem_cons] at hx
    rcases hx with rfl | hx
    · exact (inClass_localClass_iff _).mp hc
    · exact (inClass_localClass_iff _).mp (hall x hx)
  · rintro ⟨w, rfl, hne, hall⟩
    refine ⟨w, rfl, ?_⟩
    cases w with
    | nil => exact absurd rfl hne
    | cons c t =>
      have ht : ∀ x ∈ t, Regexp.inClass EmailRX.localClass x = true := fun x hx =>
        (inClass_localClass_iff x).mpr (hall x (by simp [hx]))
      obtain ⟨hf, -, hsing⟩ := singletons_flatten t ht
      exact ⟨[c], t.map (fun c => [c]), by simp [hf],
        ⟨c, rfl, (inClass_localClass_iff c).mpr (hall c (by simp))⟩, hsing⟩

theorem consumes_dotLabels (text : List Char) :
    Consumes (Regexp.ends text (.Star (.Concat (.Literal '.') EmailRX.label)))
      (fun w => ∃ ls : List (List Char),
        w = (ls.map (fun l => '.' :: l)).flatten ∧ ∀ l ∈ ls, EmailForm.validLabel l) := by
  have hD := consumes_concat (consumes_literal text '.') (consumes_label text)
  have hS := consumes_star hD (by rintro w ⟨u, v, rfl, rfl, -⟩; simp)
  intro a b
  rw [hS a b]
  constructor
  · rintro ⟨w, rfl, ws, rfl, hws⟩
    refine ⟨_, rfl, ws.map (fun x => x.tail), ?_, ?_⟩
    · congr 1
      rw [List.map_map]
      refine (List.map_congr_left ?_).trans (List.map_id ws) |>.symm
      intro x hx
      obtain ⟨u, v, rfl, rfl, -⟩ := hws x hx
      rfl
    · intro l hl
      obtain ⟨x, hx, rfl⟩ := List.mem_map.mp hl
      obtain ⟨u, v, rfl, rfl, hv⟩ := hws x hx
      exact hv
  · rintro ⟨w, rfl, ls, rfl, hls⟩
    refine ⟨_, rfl, ls.map (fun l => '.' :: l), rfl, ?_⟩
    intro x hx
    obtain ⟨l, hl, rfl⟩ := List.mem_map.mp hx
    exact ⟨['.'], l, rfl, rfl, hls l hl⟩

theorem intercalate_dot_cons (l : List Char) (ls : List (List Char)) :
    List.intercalate ['.'] (l :: ls) = l ++ (ls.map (fun x => '.' :: x)).flatten := by
  induction ls generalizing l with
  | nil => simp [List.intercalate]
  | cons x xs ih =>
    have h := ih x
    simp only [List.intercalate, List.intersperse_cons_cons, List.flatten_cons, List.map_cons,
      List.singleton_append] at h ⊢
    rw [h]
    rfl

theorem mem_ends_concat {text : List Char} {r : Regexp} {P : List Char → Prop}
    (h : Consumes (Regexp.ends text r) P) (X : Regexp) (a b : List Char) :
    b ∈ Regexp.ends text (.Concat r X) a ↔
      ∃ u m, a = u ++ m ∧ P u ∧ b ∈ Regexp.ends text X m := by
  simp only [Regexp.ends, List.mem_flatMap]
  constructor
  · rintro ⟨m, hm, hb⟩
    obtain ⟨u, rfl, hu⟩ := (h a m).mp hm
    exact ⟨u, m, rfl, hu, hb⟩
  · rintro ⟨u, m, rfl, hu, hb⟩
    exact ⟨m, (h _ _).mpr ⟨u, rfl, hu⟩, hb⟩

theorem mem_ends_concat_endText {text : List Char} {r : Regexp} {P : List Char → Prop}
    (h : Consumes (Regexp.ends text r) P) (a b : List Char) :
    b ∈ Regexp.ends text (.Concat r .EndText) a ↔ b = [] ∧ P a := by
  rw [mem_ends_concat h]
  constructor
  · rintro ⟨u, m, rfl, hu, hb⟩
    cases m with
    | nil =>
      simp only [Regexp.ends, List.isEmpty_nil, if_true, List.mem_singleton] at hb
      exact ⟨hb, by simpa using hu⟩
    | cons c t => simp [Regexp.ends] at hb
  · rintro ⟨rfl, ha⟩
    exact ⟨a, [], by simp, ha, by simp [Regexp.ends]⟩

/-- The remainders of the whole pattern at a position: the position must be the start of
the text, and the text must read as a local part, an at-sign, a label and dotted labels. -/
theorem mem_ends_EmailRX (text rest b : List Char) :
    b ∈ Regexp.ends text EmailRX rest ↔
      rest.length = text.length ∧ b = [] ∧
      ∃ (loc l : List Char) (ls : List (List Char)),
        rest = loc ++ '@' :: (l ++ (ls.map (fun x => '.' :: x)).flatten) ∧
        EmailForm.validLocal loc ∧ EmailForm.validLabel l ∧
        ∀ x ∈ ls, EmailForm.validLabel x := by
  have hbegin : ∀ X : Regexp, b ∈ Regexp.ends text (.Concat .BeginText X) rest ↔
      rest.length = text.length ∧ b ∈ Regexp.ends text X rest := by
    intro X
    by_cases hl : rest.length = text.length <;> simp [Regexp.ends, hl]
  unfold EmailRX
  rw [hbegin, mem_ends_concat (consumes_local text)]
  simp only [mem_ends_concat (consumes_literal text '@'),
    mem_ends_concat (consumes_label text),
    mem_ends_concat_endText (consumes_dotLabels text)]
  constructor
  · rintro ⟨hlen, loc, m, rfl, hloc, u2, m2, rfl, rfl, l, m3, rfl, hl, rfl, ls, rfl, hls⟩
    exact ⟨hlen, rfl, loc, l, ls, by simp, hloc, hl, hls⟩
  · rintro ⟨hlen, rfl, loc, l, ls, rfl, hloc, hl, hls⟩
    exact ⟨hlen, loc, _, rfl, hloc, ['@'], _, rfl, rfl, l, _, rfl, hl, rfl, ls, rfl, hls⟩

/-- The strings `EmailRX` matches are exactly the strings of the form described by
`EmailForm`. -/
theorem Matches_EmailRX_iff (value : String) :
    Matches value EmailRX = true ↔ EmailForm value := by
  unfold Matches Regexp.MatchString EmailForm
  simp only [List.any_eq_true, List.mem_tails, Bool.not_eq_true', List.isEmpty_eq_false_iff_exists_mem]
  constructor
  · rintro ⟨rest, hsuf, b, hb⟩
    obtain ⟨hlen, -, loc, l, ls, hrest, hloc, hl, hls⟩ := (mem_ends_EmailRX _ _ _).mp hb
    have hrt : rest = value.toList := hsuf.eq_of_length hlen
    refine ⟨loc, l :: ls, by simp, hloc, ?_, ?_⟩
    · intro x hx
      rcases List.mem_cons.mp hx with rfl | hx
      · exact hl
      · exact hls x hx
    · rw [intercalate_dot_cons, ← hrt, hrest]
  · rintro ⟨loc, labels, hne, hloc, hlabels, htext⟩
    cases labels with
    | nil => exact absurd rfl hne
    | cons l ls =>
      rw [intercalate_dot_cons] at htext
      refine ⟨value.toList, List.suffix_refl _, [], ?_⟩
      exact (mem_ends_EmailRX _ _ _).mpr ⟨rfl, rfl, loc, l, ls, htext,
        hloc, hlabels l (by simp), fun x hx => hlabels x (by simp [hx])⟩

/-- C9: `Matches(value, EmailRX)` returns true if and only if the whole of `value` has the
form `local@label1.label2...labeln` with `n ≥ 1`, where `local` is a non-empty string over
ASCII letters, digits and the listed special characters, and each label is 1 to 63
characters long, consists of ASCII letters, digits and hyphens only, and starts and ends
with a letter or digit. -/
theorem EmailRX_matches_iff_email_form (value : String) :
    Matches value EmailRX = true ↔ EmailForm value :=
  Matches_EmailRX_iff value

/-- C10: `Matches` with `EmailRX` returns true for "user@example.com", "a@b.c" and
"user@sub.domain.example.com", and false for "not-an-email" and "user@-invalid.com". -/
theorem Matches_examples :
    Matches "user@example.com" EmailRX = true ∧
    Matches "a@b.c" EmailRX = true ∧
    Matches "user@sub.domain.example.com" EmailRX = true ∧
    Matches "not-an-email" EmailRX = false ∧
    Matches "user@-invalid.com" EmailRX = false := by
  refine ⟨?_, ?_, ?_, ?_, ?_⟩ <;> decide

/-! ## Failure, monotonicity and order of the Validator's operations -/

/-- A Validator is invalid exactly when some key has an entry. -/
theorem Valid_fst_eq_false_iff (v : Validator) :
    (v.Valid).1 = false ↔ ∃ key message, v.index key = some message := by
  rw [← Bool.not_eq_true, Valid_fst_iff]
  constructor
  · intro h
    by_contra hne
    apply h
    intro key
    cases hk : v.index key with
    | none => rfl
    | some message => exact absurd ⟨key, message, hk⟩ hne
  · rintro ⟨key, message, hk⟩ h
    rw [h key] at hk
    cases hk

/-- An invalid Validator has a made map. -/
theorem made_of_invalid (v : Validator) (h : (v.Valid).1 = false) : ∃ m, v = ⟨some m⟩ := by
  obtain ⟨e⟩ := v
  cases e with
  | none => simp [Validator.Valid, Validator.len] at h
  | some m => exact ⟨m, rfl⟩

/-- A call on an invalid Validator returns normally and leaves it invalid. -/
theorem exec_keeps_invalid (v : Validator) (c : Call) (h : (v.Valid).1 = false) :
    ∃ v', v.exec c = .ok v' ∧ (v'.Valid).1 = false := by
  obtain ⟨m, rfl⟩ := made_of_invalid v h
  obtain ⟨k, msg, hk⟩ := (Valid_fst_eq_false_iff _).mp h
  refine ⟨_, exec_made m c, (Valid_fst_eq_false_iff _).mpr ?_⟩
  rw [index_mk] at hk
  by_cases hc : c.reports = true ∧ c.key ∉ m
  · rw [if_pos hc]
    by_cases hkk : k = c.key
    · subst hkk
      exact absurd (Finmap.mem_of_lookup_eq_some hk) hc.2
    · exact ⟨k, msg, by rw [index_mk, Finmap.lookup_insert_of_ne _ hkk]; exact hk⟩
  · rw [if_neg hc]
    exact ⟨k, msg, hk⟩

/-- C11 (counterexample): on the Validator whose `Errors` map was never initialised,
`AddError("email", "must be valid")` does not return normally: it fails with Go's
"assignment to entry in nil map". -/
theorem AddError_panics_on_nil_map :
    (Validator.mk none).AddError "email" "must be valid" = .error Panic.assignToNilMap ∧
    ¬ ∃ v, (Validator.mk none).AddError "email" "must be valid" = .ok v := by
  refine ⟨rfl, ?_⟩
  rintro ⟨v, h⟩
  cases h

/-- C11 (amended): `AddError` has no failure condition on a Validator whose `Errors` map
has been initialised (every Validator built by `New` and every state reached from it): for
every such Validator, every key and every message, `AddError(key, message)` returns
normally, and the Validator it leaves again has an initialised map. -/
theorem AddError_returns_on_made_map (m : Entries) (key message : String) :
    ∃ m' : Entries, (Validator.mk (some m)).AddError key message = .ok ⟨some m'⟩ :=
  ⟨_, AddError_made m key message⟩

/-- C12: on every Validator for which `Valid()` is false, every further `AddError` call and
every further `Check` call, with any arguments, returns normally and leaves a Validator
for which `Valid()` is still false; so does every finite sequence of such calls. -/
theorem invalid_stays_invalid (v : Validator) (h : (v.Valid).1 = false) :
    (∀ key message, ∃ v', v.AddError key message = .ok v' ∧ (v'.Valid).1 = false) ∧
    (∀ ok key message, ∃ v', v.Check ok key message = .ok v' ∧ (v'.Valid).1 = false) ∧
    (∀ calls, ∃ v', v.run calls = .ok v' ∧ (v'.Valid).1 = false) := by
  refine ⟨fun key message => exec_keeps_invalid v (.AddError key message) h,
    fun ok key message => exec_keeps_invalid v (.Check ok key message) h, fun calls => ?_⟩
  induction calls generalizing v with
  | nil => exact ⟨v, rfl, h⟩
  | cons c cs ih =>
    obtain ⟨v₁, h₁, hv₁⟩ := exec_keeps_invalid v c h
    obtain ⟨v₂, h₂, hv₂⟩ := ih v₁ hv₁
    exact ⟨v₂, by simp only [Validator.run, h₁]; exact h₂, hv₂⟩

theorem invalid_stays_invalid_witness :
    ∃ v', (Validator.mk (some (Finmap.singleton "name" "must be provided"))).AddError
        "email" "must be valid" = .ok v' ∧ (v'.Valid).1 = false :=
  (invalid_stays_invalid ⟨some (Finmap.singleton "name" "must be provided")⟩
    ((Valid_fst_eq_false_iff _).mpr
      ⟨"name", "must be provided", Finmap.lookup_singleton_eq⟩)).1 "email" "must be valid"

/-- C13: every finite sequence of `Check` and `AddError` calls applied to `New()` runs to
completion, and the number of keys in the final error map is at most the number of
distinct keys passed across the calls of the sequence. -/
theorem len_le_distinct_keys (calls : List Call) :
    ∃ v, New.run calls = .ok v ∧ v.len ≤ (calls.map Call.key).toFinset.card := by
  obtain ⟨m', hrun, hlook⟩ := run_made calls ∅
  refine ⟨⟨some m'⟩, hrun, ?_⟩
  apply Finset.card_le_card
  intro k hk
  have hmem : k ∈ m' := Finmap.mem_keys.mp hk
  have hsome : (firstReport k calls).isSome = true := by
    have := Finmap.lookup_isSome.mpr hmem
    rw [hlook, Finmap.lookup_empty] at this
    exact this
  obtain ⟨c, hc, -, hck⟩ := (firstReport_isSome_iff k calls).mp hsome
  exact List.mem_toFinset.mpr (List.mem_map.mpr ⟨c, hc, hck⟩)

/-- Running the same `AddError` twice has the outcome of running it once. -/
theorem run_AddError_twice (v : Validator) (key message : String) :
    v.run [Call.AddError key message, Call.AddError key message]
      = v.run [Call.AddError key message] := by
  obtain ⟨e⟩ := v
  cases e with
  | none => rfl
  | some m =>
    simp only [Validator.run, exec_made, Call.reports, Call.key, Call.message, true_and]
    by_cases h : key ∈ m
    · simp [h]
    · simp [h, Finmap.mem_insert]

/-- C14: for every Validator value, key and message, calling `AddError(key, message)`
twice in a row has the same outcome as calling it once, and likewise for
`Check(false, key, message)`; on a Validator whose map has been made both return
normally, with the same state. -/
theorem AddError_idempotent (v : Validator) (key message : String) :
    v.run [Call.AddError key message, Call.AddError key message]
      = v.run [Call.AddError key message] ∧
    v.run [Call.Check false key message, Call.Check false key message]
      = v.run [Call.Check false key message] ∧
    (∀ m, v = ⟨some m⟩ → ∃ v',
      v.run [Call.AddError key message, Call.AddError key message] = .ok v' ∧
      v.run [Call.AddError key message] = .ok v') := by
  refine ⟨run_AddError_twice v key message, run_AddError_twice v key message, ?_⟩
  rintro m rfl
  obtain ⟨m', h, -⟩ := run_made [Call.AddError key message] m
  exact ⟨_, (run_AddError_twice _ key message).trans h, h⟩

theorem AddError_idempotent_witness :
    ∃ v', New.run [Call.AddError "name" "must be provided",
        Call.AddError "name" "must be provided"] = .ok v' ∧
      New.run [Call.AddError "name" "must be provided"] = .ok v' :=
  (AddError_idempotent New "name" "must be provided").2.2 ∅ rfl

/-- C15: the Validator returned by `New` has an initialised, empty error map: `Valid()`
is true on it and no key has a recorded message. -/
theorem New_is_empty :
    New.Errors = some ∅ ∧ (New.Valid).1 = true ∧ New.len = 0 ∧ ∀ key, New.index key = none := by
  have h : ∀ key, New.index key = none := fun key => Finmap.lookup_empty key
  exact ⟨rfl, (Valid_fst_iff New).mpr h, (len_eq_zero_iff New).mpr h, h⟩

/-- Both conditions of the scenario evaluate to false. -/
theorem scenario_eq :
    scenario = [Call.Check false "name" "must be provided",
      Call.Check false "email" "must be valid"] := by
  decide

/-- C16: starting from `New()`, after `Check(len(name) > 0, "name", "must be provided")`
with `name` the empty string and then
`Check(Matches("bad-email", EmailRX), "email", "must be valid")`, both calls have returned
normally, `Valid()` is false, and the error map holds exactly the entries
"name" ↦ "must be provided" and "email" ↦ "must be valid". -/
theorem scenario_records_both :
    ∃ v, New.run scenario = .ok v ∧ (v.Valid).1 = false ∧
      v.index "name" = some "must be provided" ∧
      v.index "email" = some "must be valid" ∧
      ∀ key, key ≠ "name" → key ≠ "email" → v.index key = none := by
  obtain ⟨m', hrun, hlook⟩ := run_made scenario ∅
  have hidx : ∀ key, (Validator.mk (some m')).index key = firstReport key scenario := by
    intro key
    rw [index_mk, hlook, Finmap.lookup_empty]
    rfl
  have hname : (Validator.mk (some m')).index "name" = some "must be provided" := by
    rw [hidx, scenario_eq]; decide
  refine ⟨⟨some m'⟩, hrun, ?_, hname, ?_, ?_⟩
  · rw [← Bool.not_eq_true, Valid_fst_iff]
    intro h
    rw [h "name"] at hname
    cases hname
  · rw [hidx, scenario_eq]; decide
  · intro key h₁ h₂
    rw [hidx, scenario_eq]
    simp [firstReport, Call.reports, Call.key, Ne.symm h₁, Ne.symm h₂]

/-- C17 (counterexample): for the float64 value NaN, `Unique([NaN, NaN])` is true: NaN
does not compare equal to itself, so each insert adds a new key to the map. -/
theorem Unique_NaN_twice :
    Unique [Float64.NaN, Float64.NaN] = .ok true := rfl

/-- C17 (amended): for every `x` and `y` of a comparable type that can be used as map
keys without a run-time failure, `Unique` of the empty slice and of `[x]` are true,
`Unique([x, x])` is false when `x == x` holds, and `Unique([x, y])` is true when
`x != y`. -/
theorem Unique_small {T : Type} [comparable T] (x y : T)
    (hx : comparable.hashable x = true) (hy : comparable.hashable y = true) :
    Unique ([] : List T) = .ok true ∧ Unique [x] = .ok true ∧
    (comparable.eq x x = some true → Unique [x, x] = .ok false) ∧
    (comparable.eq x y = some false → Unique [x, y] = .ok true) := by
  refine ⟨rfl, ?_, fun h => ?_, fun h => ?_⟩
  · simp [Unique, Unique.uniqueValues, Unique.assign, hx]
  · simp [Unique, Unique.uniqueValues, Unique.assign, hx, h]
  · simp [Unique, Unique.uniqueValues, Unique.assign, hx, hy, h]

theorem Unique_small_witness :
    Unique ([] : List String) = .ok true ∧ Unique ["name"] = .ok true ∧
    Unique ["name", "name"] = .ok false ∧ Unique ["name", "email"] = .ok true :=
  ⟨(Unique_small "name" "email" rfl rfl).1, (Unique_small "name" "email" rfl rfl).2.1,
   (Unique_small "name" "email" rfl rfl).2.2.1 rfl,
   (Unique_small "name" "email" rfl rfl).2.2.2 (by decide)⟩

/-- The outcome of two `AddError` calls under different keys does not depend on their
order. -/
theorem run_AddError_swap (v : Validator) (k1 k2 m1 m2 : String) (hk : k1 ≠ k2) :
    v.run [Call.AddError k1 m1, Call.AddError k2 m2]
      = v.run [Call.AddError k2 m2, Call.AddError k1 m1] := by
  obtain ⟨e⟩ := v
  cases e with
  | none => rfl
  | some m =>
    obtain ⟨ma, ha, hla⟩ := run_made [Call.AddError k1 m1, Call.AddError k2 m2] m
    obtain ⟨mb, hb, hlb⟩ := run_made [Call.AddError k2 m2, Call.AddError k1 m1] m
    rw [ha, hb]
    congr 3
    apply Finmap.ext_lookup
    intro k
    rw [hla, hlb]
    congr 1
    funext _
    by_cases h1 : k1 = k <;> by_cases h2 : k2 = k <;>
      simp [firstReport, Call.reports, Call.key, Call.message, h1, h2]
    exact absurd (h1.trans h2.symm) hk

/-- C18 (counterexample): the Validator whose map was never made lacks the key "name" and
the two messages differ, yet both orders of the two `AddError` calls have the same
outcome: the first call fails and no map is produced. -/
theorem AddError_same_key_nil_map_same_outcome :
    (Validator.mk none).index "name" = none ∧ "must be provided" ≠ "too long" ∧
    (Validator.mk none).run
        [Call.AddError "name" "must be provided", Call.AddError "name" "too long"]
      = (Validator.mk none).run
        [Call.AddError "name" "too long", Call.AddError "name" "must be provided"] ∧
    ¬ ∃ v, (Validator.mk none).run
        [Call.AddError "name" "must be provided", Call.AddError "name" "too long"] = .ok v := by
  refine ⟨rfl, by decide, rfl, ?_⟩
  rintro ⟨v, h⟩
  cases h

/-- C18 (amended): for every Validator value and every two different keys `k1` and `k2`,
`AddError(k1, m1)` followed by `AddError(k2, m2)` has the same outcome as the two calls in
the other order, and on a Validator whose map has been made both orders return normally
with the same error map; for one key `k1` with different messages, on a Validator whose
map has been made and lacks `k1`, the two orders return normally with different maps
(`k1` reads the message of whichever call came first). -/
theorem AddError_order (v : Validator) (m : Entries) (k1 k2 m1 m2 : String) :
    (k1 ≠ k2 →
      v.run [Call.AddError k1 m1, Call.AddError k2 m2]
        = v.run [Call.AddError k2 m2, Call.AddError k1 m1]) ∧
    (k1 ≠ k2 → ∃ v',
      (Validator.mk (some m)).run [Call.AddError k1 m1, Call.AddError k2 m2] = .ok v' ∧
      (Validator.mk (some m)).run [Call.AddError k2 m2, Call.AddError k1 m1] = .ok v') ∧
    ((Validator.mk (some m)).index k1 = none → m1 ≠ m2 → ∃ va vb,
      (Validator.mk (some m)).run [Call.AddError k1 m1, Call.AddError k1 m2] = .ok va ∧
      (Validator.mk (some m)).run [Call.AddError k1 m2, Call.AddError k1 m1] = .ok vb ∧
      va.index k1 = some m1 ∧ vb.index k1 = some m2 ∧ va ≠ vb) := by
  refine ⟨run_AddError_swap v k1 k2 m1 m2, fun hk => ?_, fun hnone hne => ?_⟩
  · obtain ⟨ma, ha, -⟩ := run_made [Call.AddError k1 m1, Call.AddError k2 m2] m
    exact ⟨_, ha, (run_AddError_swap _ k1 k2 m1 m2 hk).symm.trans ha⟩
  · obtain ⟨ma, ha, hla⟩ := run_made [Call.AddError k1 m1, Call.AddError k1 m2] m
    obtain ⟨mb, hb, hlb⟩ := run_made [Call.AddError k1 m2, Call.AddError k1 m1] m
    rw [index_mk] at hnone
    have hva : (Validator.mk (some ma)).index k1 = some m1 := by
      rw [index_mk, hla, hnone]
      simp [firstReport, Call.reports, Call.key, Call.message]
    have hvb : (Validator.mk (some mb)).index k1 = some m2 := by
      rw [index_mk, hlb, hnone]
      simp [firstReport, Call.reports, Call.key, Call.message]
    refine ⟨_, _, ha, hb, hva, hvb, ?_⟩
    intro heq
    rw [heq, hvb] at hva
    exact hne (Option.some.inj hva).symm

theorem AddError_order_witness :
    (New.run [Call.AddError "name" "must be provided", Call.AddError "email" "must be valid"]
      = New.run [Call.AddError "email" "must be valid", Call.AddError "name" "must be provided"]) ∧
    ∃ va vb,
      New.run [Call.AddError "name" "must be provided", Call.AddError "name" "too long"]
        = .ok va ∧
      New.run [Call.AddError "name" "too long", Call.AddError "name" "must be provided"]
        = .ok vb ∧
      va.index "name" = some "must be provided" ∧ vb.index "name" = some "too long" ∧
      va ≠ vb :=
  ⟨(AddError_order New ∅ "name" "email" "must be provided" "must be valid").1 (by decide),
   (AddError_order New ∅ "name" "name" "must be provided" "too long").2.2 rfl (by decide)⟩

/-- C19: the bundled pattern does not require a dot in the domain: every string of the form
`local@label`, with a valid non-empty local part and a single valid label, is matched by
`EmailRX`. -/
theorem EmailRX_needs_no_dot (value : String) (loc l : List Char)
    (hloc : EmailForm.validLocal loc) (hl : EmailForm.validLabel l)
    (hvalue : value.toList = loc ++ '@' :: l) :
    Matches value EmailRX = true := by
  rw [Matches_EmailRX_iff]
  refine ⟨loc, [l], by simp, hloc, ?_, ?_⟩
  · intro x hx
    rw [List.mem_singleton.mp hx]
    exact hl
  · rw [hvalue]
    simp [List.intercalate]

theorem validLocal_user : EmailForm.validLocal "user".toList := by
  refine ⟨by decide, ?_⟩
  intro c hc
  left
  simp only [String.toList, List.mem_cons, List.mem_singleton, List.not_mem_nil, or_false] at hc
  unfold EmailForm.letter
  rcases hc with rfl | rfl | rfl | rfl <;> decide

theorem validLabel_localhost : EmailForm.validLabel "localhost".toList := by
  refine ⟨by decide, by decide, ?_, ⟨'l', rfl, ?_⟩, ⟨'t', rfl, ?_⟩⟩
  · intro c hc
    left
    simp only [String.toList, List.mem_cons, List.mem_singleton, List.not_mem_nil, or_false] at hc
    unfold EmailForm.letter
    rcases hc with rfl | rfl | rfl | rfl | rfl | rfl | rfl | rfl | rfl <;> decide
  · left; unfold EmailForm.letter; decide
  · left; unfold EmailForm.letter; decide

theorem EmailRX_needs_no_dot_witness : Matches "user@localhost" EmailRX = true :=
  EmailRX_needs_no_dot "user@localhost" "user".toList "localhost".toList
    validLocal_user validLabel_localhost rfl

end validator
